import Mathlib

/-!
Verification development for the 0install component system: the descriptor
data model, the dependency resolver, the content store and fetcher, the launch
environment builder, and the minimal driver script
(src/samples/MinimalZeroInstall.py) that wires them together.

The driver script is embedded from the source.  The services it calls
(Solver, SelectionsManager, Fetcher, Executor) are not part of the source
tree, so they are modelled from the spec, as noted on each definition.
-/

namespace ZeroInstall

/-! ## Descriptor model -/

/-- An Interface is a globally unique URI naming an abstract component. -/
abbrev Interface := String

/-- A version is ordered and multi-part; compared lexicographically. -/
abbrev Version := List Nat

/-- A Manifest Digest: cryptographic hash over an unpacked implementation
tree, used as cache key and integrity check.  Modelled abstractly as an
opaque string identifier. -/
abbrev Digest := String

/-- An architecture/OS identifier; the wildcard value matches anything. -/
abbrev Arch := String

/-- Lexicographic strict order on multi-part versions (a shorter version is
below its extensions, so 1 < 1.0). -/
def verLt : Version → Version → Bool
  | [], [] => false
  | [], _ :: _ => true
  | _ :: _, [] => false
  | a :: as, b :: bs =>
    if a < b then true else if b < a then false else verLt as bs

/-- A version range with optional inclusive/exclusive bounds. -/
structure VersionRange where
  lower : Option Version
  lowerInclusive : Bool
  upper : Option Version
  upperInclusive : Bool
deriving DecidableEq, Repr

/-- Membership of a version in a range. -/
def VersionRange.contains (r : VersionRange) (v : Version) : Bool :=
  (match r.lower with
   | none => true
   | some lo => if r.lowerInclusive then !(verLt v lo) else verLt lo v) &&
  (match r.upper with
   | none => true
   | some hi => if r.upperInclusive then !(verLt hi v) else verLt v hi)

/-- The unconstrained range. -/
def VersionRange.anyVersion : VersionRange := ⟨none, true, none, true⟩

/-- Stability tier, ordered: stable > testing > experimental. -/
inductive Stability where
  | stable
  | testing
  | experimental
deriving DecidableEq, Repr

/-- Numeric rank of a stability tier (higher is better). -/
def Stability.rank : Stability → Nat
  | .stable => 2
  | .testing => 1
  | .experimental => 0

/-- Importance tier of a dependency. -/
inductive Importance where
  | required
  | recommended
  | optional
deriving DecidableEq, Repr

/-- A Dependency: a reference from an Implementation to an Interface with an
accepted version range, an importance tier and an OS/architecture
applicability filter. -/
structure Dependency where
  iface : Interface
  range : VersionRange
  importance : Importance
  archFilter : Option Arch
deriving DecidableEq, Repr

/-- A named entry point exposed by an implementation. -/
structure Command where
  name : String
  path : String
deriving DecidableEq, Repr

/-- A Binding: declarative rule exposing a dependency's resolved path to the
launch environment. -/
structure Binding where
  envName : String
  envValue : String
deriving DecidableEq, Repr

/-- An Implementation: one concrete installable version of an Interface. -/
structure Implementation where
  version : Version
  stability : Stability
  arch : Arch
  dependencies : List Dependency
  bindings : List Binding
  sourceUrl : String
  digest : Digest
  commands : List Command
deriving DecidableEq, Repr

/-- A Feed: an externally published document listing Implementations of one
Interface. -/
structure Feed where
  iface : Interface
  implementations : List Implementation
deriving DecidableEq, Repr

/-- The feed set available to one resolution run (immutable during it). -/
abbrev FeedSet := List Feed

/-- The top-level resolution request. -/
structure Requirements where
  interfaceUri : Interface
  versionConstraint : Option VersionRange
  commandName : Option String
  archOverride : Option Arch
deriving DecidableEq, Repr

/-- The constructor the driver uses: only an Interface URI is supplied
(`Requirements(FeedUri(sys.argv[1]))`); every optional field is absent. -/
def Requirements.ofUri (u : Interface) : Requirements :=
  ⟨u, none, none, none⟩

/-- The command name actually used: the optional command name, defaulting to
"run". -/
def Requirements.effectiveCommand (r : Requirements) : String :=
  r.commandName.getD "run"

/-- The Resolver's output: at most one chosen Implementation per Interface. -/
structure Selections where
  interfaceUri : Interface
  commandName : String
  entries : List (Interface × Implementation)
deriving DecidableEq, Repr

/-! ## Resolver (Solver)

Modelled from the spec: the Resolver itself (ZeroInstall.Services Solver) is
not in the source tree.  Resolution is a constraint-satisfaction search: each
Interface is a variable whose domain is its known Implementations filtered by
architecture applicability and the active version constraint; selecting an
Implementation adds its required Dependencies as further goals; candidates
are tried in the deterministic preference order (cached, stability, version,
feed declaration order); on a violation the search backtracks to the most
recent choice point; optional dependencies that cannot be satisfied are
dropped. -/

/-- All Implementations of an Interface, in feed-declared order. -/
def implsFor (world : FeedSet) (i : Interface) : List Implementation :=
  (world.filter (fun f => f.iface = i)).flatMap (fun f => f.implementations)

/-- Architecture applicability of an implementation against the (optional)
requested architecture. -/
def archOk (a : Option Arch) (im : Implementation) : Bool :=
  match a with
  | none => true
  | some ar => im.arch = "*" || im.arch = ar

/-- Whether a dependency's OS/architecture filter applies to this run. -/
def depApplies (a : Option Arch) (dep : Dependency) : Bool :=
  match dep.archFilter with
  | none => true
  | some ar => a = some ar

/-- Whether an implementation's digest is already in the local cache. -/
def implCached (cached : List Digest) (im : Implementation) : Bool :=
  cached.contains im.digest

/-- Strict preference between candidates: (1) already cached, (2) higher
stability tier, (3) higher version; feed order is the final tie-break,
realised by the stability of the insertion sort below. -/
def strictlyPreferred (cached : List Digest) (a b : Implementation) : Bool :=
  if implCached cached a ≠ implCached cached b then implCached cached a
  else if a.stability.rank ≠ b.stability.rank then b.stability.rank < a.stability.rank
  else verLt b.version a.version

/-- Stable insertion into a preference-sorted list: an element passes every
strictly preferred existing element and stops before the first that is not,
so equally ranked candidates keep their feed-declared order. -/
def insertPref (cached : List Digest) (a : Implementation) :
    List Implementation → List Implementation
  | [] => [a]
  | b :: bs =>
    if strictlyPreferred cached b a then b :: insertPref cached a bs
    else a :: b :: bs

/-- Stable preference sort of a candidate list. -/
def sortPref (cached : List Digest) : List Implementation → List Implementation
  | [] => []
  | a :: as => insertPref cached a (sortPref cached as)

/-- The candidate domain for one dependency goal: implementations of the
target interface that are architecture-applicable and inside the accepted
version range, in preference order. -/
def candidates (world : FeedSet) (cached : List Digest) (a : Option Arch)
    (dep : Dependency) : List Implementation :=
  sortPref cached
    ((implsFor world dep.iface).filter
      (fun im => archOk a im && dep.range.contains im.version))

/-- Lookup in a partial assignment (association list Interface → chosen
Implementation). -/
def lookupSel : List (Interface × Implementation) → Interface → Option Implementation
  | [], _ => none
  | p :: ps, i => if p.1 = i then some p.2 else lookupSel ps i

/-- The resolver's failure value: no consistent Selections exists.  Carries
the root interface for diagnostics. -/
inductive SolveFailure where
  | unsatisfiable (iface : Interface)
deriving DecidableEq, Repr

/-- The backtracking search.  `sel` is the partial assignment, `todo` the
outstanding dependency goals.  A goal on an already-assigned interface is
checked against the assigned version; a goal on a fresh interface opens a
choice point over its candidate domain, backtracking on failure; a required
goal with no workable candidate fails the branch, a non-required one is
dropped.  The fuel argument only bounds recursion depth; `solveFuel` below
is proven sufficient. -/
def expand (world : FeedSet) (cached : List Digest) (a : Option Arch) :
    Nat → List (Interface × Implementation) → List Dependency →
    Option (List (Interface × Implementation))
  | _, sel, [] => some sel
  | 0, _, _ :: _ => none
  | fuel + 1, sel, dep :: rest =>
    if depApplies a dep then
      match lookupSel sel dep.iface with
      | some im =>
        if dep.range.contains im.version then
          expand world cached a fuel sel rest
        else if dep.importance = Importance.required then none
        else expand world cached a fuel sel rest
      | none =>
        match (candidates world cached a dep).findSome?
            (fun im =>
              expand world cached a fuel ((dep.iface, im) :: sel)
                (im.dependencies ++ rest)) with
        | some out => some out
        | none =>
          if dep.importance = Importance.required then none
          else expand world cached a fuel sel rest
    else expand world cached a fuel sel rest

/-- The distinct interfaces mentioned by the feed set. -/
def interfacesOf (world : FeedSet) : List Interface :=
  (world.map Feed.iface).dedup

/-- The largest dependency-list length over all implementations in the feed
set. -/
def maxDeps (world : FeedSet) : Nat :=
  world.foldr
    (fun f m =>
      f.implementations.foldr (fun im m2 => max im.dependencies.length m2) m)
    0

/-- Fuel sufficient for any search path over this feed set. -/
def solveFuel (world : FeedSet) : Nat :=
  1 + (interfacesOf world).length * (maxDeps world + 1)

/-- The root goal: the requested interface, constrained by the optional
explicit version constraint, always required. -/
def rootDep (req : Requirements) : Dependency :=
  ⟨req.interfaceUri, req.versionConstraint.getD VersionRange.anyVersion,
   Importance.required, none⟩

/-- Modelled from the spec: `Solve(Requirements) -> Selections |
UnsatisfiableError` (the Solver service is not in the source tree).  Runs
the backtracking search from the root goal over an empty assignment. -/
def solve (world : FeedSet) (cached : List Digest) (req : Requirements) :
    Except SolveFailure Selections :=
  match expand world cached req.archOverride (solveFuel world) [] [rootDep req] with
  | some sel => Except.ok ⟨req.interfaceUri, req.effectiveCommand, sel⟩
  | none => Except.error (SolveFailure.unsatisfiable req.interfaceUri)

/-! ## Content store and fetcher

Modelled from the spec: the store and fetcher services are not in the source
tree.  The store is a set of Manifest Digests whose entries live at
digest-addressed paths; a digest either has a trustworthy entry or none.
Network transfer is abstracted as a function giving, per URL and per attempt
number, either the digest actually computed over the downloaded and unpacked
tree, or a transient failure. -/

/-- The content-addressed cache: the digests that currently have entries. -/
abbrev Store := List Digest

/-- The final digest-addressed path of a store entry. -/
def storePath (d : Digest) : String := "cache/" ++ d

/-- The network, abstracted: per URL and attempt number, the Manifest Digest
recomputed over what that attempt actually delivered (`none` is a transient
network failure for that attempt). -/
abbrev Network := String → Nat → Option Digest

/-- Observable events of one driver run, in order of occurrence. -/
inductive Event where
  | solved
  | fetchRequested (d : Digest)
  | download (url : String) (attempt : Nat) (result : Option Digest)
  | fetched (d : Digest)
  | started (command : String) (entryPoint : String)
deriving DecidableEq, Repr

/-- Fetch-layer failures.  A transient, retryable network failure after
bounded attempts is a distinct constructor from the fatal integrity
violation, so callers can tell them apart. -/
inductive FetchFailure where
  | fetchError (url : String)
  | digestMismatch (expected : Digest) (actual : Digest)
deriving DecidableEq, Repr

/-- Bounded retry of the download: attempts are made in order until one
succeeds or the attempt budget is exhausted; every attempt is recorded as a
download event and no attempt follows a successful one. -/
def downloadGo (net : Network) (url : String) :
    Nat → Nat → Option Digest × List Event
  | _, 0 => (none, [])
  | attempt, rem + 1 =>
    match net url attempt with
    | some d => (some d, [Event.download url attempt (some d)])
    | none =>
      let r := downloadGo net url (attempt + 1) rem
      (r.1, Event.download url attempt none :: r.2)

/-- Modelled from the spec: `EnsureCached(Implementation) -> LocalPath |
FetchError` (the Fetcher service is not in the source tree).  A digest
already present is a cache hit: the entry's path is returned immediately and
no network attempt happens.  Otherwise the archive is downloaded with
bounded retries; exhaustion is a transient FetchError; a successful download
whose recomputed digest differs from the declared one is a fatal
DigestMismatchError, the staged content is discarded and the store is left
without an entry at that digest; on a match the staged tree is promoted to
its final digest-addressed path. -/
def ensureCached (net : Network) (maxAttempts : Nat) (store : Store)
    (im : Implementation) : Except FetchFailure (Store × String) × List Event :=
  if store.contains im.digest then
    (Except.ok (store, storePath im.digest), [])
  else
    match downloadGo net im.sourceUrl 0 maxAttempts with
    | (none, evs) => (Except.error (FetchFailure.fetchError im.sourceUrl), evs)
    | (some d, evs) =>
      if d = im.digest then
        (Except.ok (im.digest :: store, storePath im.digest),
         evs ++ [Event.fetched im.digest])
      else
        (Except.error (FetchFailure.digestMismatch im.digest d), evs)

/-- Modelled from the spec: `ListMissing(Selections)` /
`SelectionsManager.GetUncachedImplementations` (not in the source tree): the
selected implementations whose digests have no store entry, in selection
order. -/
def getUncachedImplementations (store : Store) (sel : Selections) :
    List Implementation :=
  (sel.entries.map Prod.snd).filter (fun im => !(store.contains im.digest))

/-! ## Launch environment builder (Executor) -/

/-- Launch-time failures, local to the Executor. -/
inductive LaunchFailure where
  | missingCommand (name : String)
  | rootMissing (iface : Interface)
deriving DecidableEq, Repr

/-- Lookup of a named entry point among an implementation's commands. -/
def lookupCommand : List Command → String → Option String
  | [], _ => none
  | c :: cs, n => if c.name = n then some c.path else lookupCommand cs n

/-- Modelled from the spec: `Start` of the Executor (not in the source
tree), restricted to what the claims observe: resolve the root
Implementation from the Selections, resolve the requested command name to
its entry point (MissingCommandError if the root does not declare it), and
launch — recorded as a started event. -/
def startExecutor (sel : Selections) : Except LaunchFailure Event :=
  match lookupSel sel.entries sel.interfaceUri with
  | none => Except.error (LaunchFailure.rootMissing sel.interfaceUri)
  | some root =>
    match lookupCommand root.commands sel.commandName with
    | none => Except.error (LaunchFailure.missingCommand sel.commandName)
    | some entry => Except.ok (Event.started sel.commandName entry)

/-! ## The driver (src/samples/MinimalZeroInstall.py)

Embedded from the source: build Requirements from `sys.argv[1]`, Solve,
fetch each uncached selected implementation in a sequential `for` loop, then
Start.  A Python exception at any stage propagates and aborts the run. -/

/-- A driver run's failure: the IndexError from `sys.argv[1]` when no
argument was given, or the propagated failure of a stage. -/
inductive DriverFailure where
  | missingArgument
  | solveFailed (e : SolveFailure)
  | fetchFailed (e : FetchFailure)
  | launchFailed (e : LaunchFailure)
deriving DecidableEq, Repr

/-- The Requirements the driver builds: `Requirements(FeedUri(sys.argv[1]))`,
or none when index 1 is out of range. -/
def driverRequirements (argv : List String) : Option Requirements :=
  (argv.get? 1).map Requirements.ofUri

/-- The driver's fetch loop: `for implementation in uncached:
Fetcher.Fetch(implementation)`.  Each call is recorded as a fetchRequested
event followed by that fetch's own events; each fetch finishes before the
next is requested; the first failure aborts the loop with the store as the
previous iteration left it. -/
def fetchAll (net : Network) (maxAttempts : Nat) :
    Store → List Implementation → Store × List Event × Option FetchFailure
  | store, [] => (store, [], none)
  | store, im :: ims =>
    match ensureCached net maxAttempts store im with
    | (Except.ok (store2, _), evs) =>
      let r := fetchAll net maxAttempts store2 ims
      (r.1, (Event.fetchRequested im.digest :: evs) ++ r.2.1, r.2.2)
    | (Except.error e, evs) =>
      (store, Event.fetchRequested im.digest :: evs, some e)

/-- The driver, embedded from the source line by line: `requirements =
Requirements(FeedUri(sys.argv[1]))`; `selections =
services.Solver.Solve(requirements)`; the sequential fetch loop over
`GetUncachedImplementations(services.SelectionsManager, selections)`;
`services.Executor.Start(selections)`.  Returns the final store, the event
trace in order, and the failure that aborted the run, if any. -/
def runDriver (world : FeedSet) (net : Network) (maxAttempts : Nat)
    (store : Store) (argv : List String) :
    Store × List Event × Option DriverFailure :=
  match driverRequirements argv with
  | none => (store, [], some DriverFailure.missingArgument)
  | some req =>
    match solve world store req with
    | Except.error e => (store, [], some (DriverFailure.solveFailed e))
    | Except.ok sel =>
      match fetchAll net maxAttempts store (getUncachedImplementations store sel) with
      | (store2, evs, some e) =>
        (store2, Event.solved :: evs, some (DriverFailure.fetchFailed e))
      | (store2, evs, none) =>
        match startExecutor sel with
        | Except.error e =>
          (store2, Event.solved :: evs, some (DriverFailure.launchFailed e))
        | Except.ok ev => (store2, Event.solved :: (evs ++ [ev]), none)

/-! ## Specification predicates -/

/-- A dependency goal is satisfied by an assignment: the target interface is
assigned an implementation whose version lies inside the accepted range. -/
def SatBy (out : List (Interface × Implementation)) (dep : Dependency) : Prop :=
  ∃ im, lookupSel out dep.iface = some im ∧ dep.range.contains im.version = true

/-- A well-formed entry of an assignment: the implementation comes from the
feed set's implementations of its interface, is architecture-applicable, and
all its applicable required dependencies are satisfied by the assignment. -/
def GoodEntry (world : FeedSet) (a : Option Arch)
    (out : List (Interface × Implementation)) (p : Interface × Implementation) : Prop :=
  p.2 ∈ implsFor world p.1 ∧ archOk a p.2 = true ∧
  ∀ dep ∈ p.2.dependencies, depApplies a dep = true →
    dep.importance = Importance.required → SatBy out dep

/-- A consistent total solution, as a partial map from Interfaces to chosen
Implementations: every choice comes from the feed set and is applicable, and
every applicable required dependency of every chosen implementation is
satisfied by a choice inside its range. -/
def Solution (world : FeedSet) (a : Option Arch)
    (F : Interface → Option Implementation) : Prop :=
  (∀ i im, F i = some im → im ∈ implsFor world i ∧ archOk a im = true) ∧
  (∀ i im, F i = some im → ∀ dep ∈ im.dependencies, depApplies a dep = true →
    dep.importance = Importance.required →
    ∃ im2, F dep.iface = some im2 ∧ dep.range.contains im2.version = true)

/-- A dependency goal satisfied by a solution map. -/
def SatByF (F : Interface → Option Implementation) (dep : Dependency) : Prop :=
  ∃ im, F dep.iface = some im ∧ dep.range.contains im.version = true

/-- The feed set is satisfiable for a Requirements value: some consistent
solution also covers the root goal. -/
def Satisfiable (world : FeedSet) (req : Requirements) : Prop :=
  ∃ F, Solution world req.archOverride F ∧ SatByF F (rootDep req)

/-- A valid resolver output for a request: the root interface and effective
command are recorded, at most one implementation per interface is selected,
every entry is well-formed with all applicable required dependencies
satisfied in-range, and the root goal itself is satisfied. -/
def ValidSelections (world : FeedSet) (req : Requirements) (sel : Selections) : Prop :=
  sel.interfaceUri = req.interfaceUri ∧
  sel.commandName = req.effectiveCommand ∧
  (sel.entries.map Prod.fst).Nodup ∧
  (∀ p ∈ sel.entries, GoodEntry world req.archOverride sel.entries p) ∧
  SatBy sel.entries (rootDep req)

/-- The search-size bound: outstanding goals plus, for every interface not
yet assigned, room for one assignment and its dependency goals. -/
def remaining (world : FeedSet) (sel : List (Interface × Implementation)) : Nat :=
  ((interfacesOf world).filter (fun i => (lookupSel sel i).isNone)).length

/-- The bound on the length of any single search path from a state. -/
def searchBound (world : FeedSet) (sel : List (Interface × Implementation))
    (todo : List Dependency) : Nat :=
  todo.length + remaining world sel * (maxDeps world + 1)

/-- The digests of the Fetch calls recorded in an event trace, in order. -/
def requestedOf (evs : List Event) : List Digest :=
  evs.filterMap (fun e =>
    match e with
    | Event.fetchRequested d => some d
    | _ => none)

/-- The per-iteration event blocks of the driver's fetch loop: one block per
loop iteration, each opening with its fetchRequested event; the loop stops
after a failing block. -/
def fetchBlocks (net : Network) (maxAttempts : Nat) :
    Store → List Implementation → List (List Event)
  | _, [] => []
  | store, im :: ims =>
    match ensureCached net maxAttempts store im with
    | (Except.ok (store2, _), evs) =>
      (Event.fetchRequested im.digest :: evs) :: fetchBlocks net maxAttempts store2 ims
    | (Except.error _, evs) => [Event.fetchRequested im.digest :: evs]

/-! ## Concrete scenarios (from the spec's testable properties) -/

/-- Editor 1.0: stable, no dependencies. -/
def ed10 : Implementation :=
  ⟨[1, 0], Stability.stable, "*", [], [], "u-ed10", "d-ed10", [⟨"run", "bin/ed10"⟩]⟩

/-- Editor 1.5: stable, requires spellcheck in range [2,3). -/
def ed15 : Implementation :=
  ⟨[1, 5], Stability.stable, "*",
   [⟨"app:spellcheck", ⟨some [2], true, some [3], false⟩, Importance.required, none⟩],
   [], "u-ed15", "d-ed15", [⟨"run", "bin/ed15"⟩]⟩

/-- Spellcheck 2.1: stable, no dependencies. -/
def sp21 : Implementation :=
  ⟨[2, 1], Stability.stable, "*", [], [], "u-sp21", "d-sp21", [⟨"run", "bin/sp21"⟩]⟩

/-- Spellcheck 3.0: stable, no dependencies. -/
def sp30 : Implementation :=
  ⟨[3, 0], Stability.stable, "*", [], [], "u-sp30", "d-sp30", [⟨"run", "bin/sp30"⟩]⟩

/-- Feed set of the spec's first concrete scenario. -/
def w0 : FeedSet :=
  [⟨"app:editor", [ed10, ed15]⟩, ⟨"app:spellcheck", [sp21, sp30]⟩]

/-- Requirements of the spec's first concrete scenario: editor in [1,2). -/
def r0 : Requirements :=
  ⟨"app:editor", some ⟨some [1], true, some [2], false⟩, none, none⟩

/-- Feed set where spellcheck only offers 3.0 and the editor constraint is
pinned to 1.5, making resolution unsatisfiable. -/
def w1 : FeedSet :=
  [⟨"app:editor", [ed15]⟩, ⟨"app:spellcheck", [sp30]⟩]

/-- A solution map witnessing satisfiability of the first scenario. -/
def f0 : Interface → Option Implementation :=
  fun i =>
    if i = "app:editor" then some ed15
    else if i = "app:spellcheck" then some sp21
    else none

/-- Diamond scenario: implementation of interface A, requiring C in [1,3). -/
def dimA : Implementation :=
  ⟨[1], Stability.stable, "*",
   [⟨"app:c", ⟨some [1], true, some [3], false⟩, Importance.required, none⟩],
   [], "u-a", "d-a", []⟩

/-- Diamond scenario: implementation of interface B, requiring C in [2,4). -/
def dimB : Implementation :=
  ⟨[1], Stability.stable, "*",
   [⟨"app:c", ⟨some [2], true, some [4], false⟩, Importance.required, none⟩],
   [], "u-b", "d-b", []⟩

/-- Diamond scenario: the root, requiring both A and B. -/
def dimRoot : Implementation :=
  ⟨[1], Stability.stable, "*",
   [⟨"app:a", VersionRange.anyVersion, Importance.required, none⟩,
    ⟨"app:b", VersionRange.anyVersion, Importance.required, none⟩],
   [], "u-root", "d-root", []⟩

/-- Diamond scenario: candidate implementations of C. -/
def dimC10 : Implementation :=
  ⟨[1, 0], Stability.stable, "*", [], [], "u-c10", "d-c10", []⟩

def dimC25 : Implementation :=
  ⟨[2, 5], Stability.stable, "*", [], [], "u-c25", "d-c25", []⟩

def dimC35 : Implementation :=
  ⟨[3, 5], Stability.stable, "*", [], [], "u-c35", "d-c35", []⟩

/-- Diamond feed set with overlapping ranges: [1,3) ∩ [2,4) contains 2.5. -/
def wDiamondOk : FeedSet :=
  [⟨"app:root", [dimRoot]⟩, ⟨"app:a", [dimA]⟩, ⟨"app:b", [dimB]⟩,
   ⟨"app:c", [dimC10, dimC25, dimC35]⟩]

/-- B variant requiring C in [3,4), disjoint from A's [1,3) on offer
\x7b1.0, 2.5\x7d — no single C satisfies both. -/
def dimBBad : Implementation :=
  ⟨[1], Stability.stable, "*",
   [⟨"app:c", ⟨some [3], true, some [4], false⟩, Importance.required, none⟩],
   [], "u-b", "d-b", []⟩

/-- Diamond feed set with disjoint effective ranges for C. -/
def wDiamondBad : FeedSet :=
  [⟨"app:root", [dimRoot]⟩, ⟨"app:a", [dimA]⟩, ⟨"app:b", [dimBBad]⟩,
   ⟨"app:c", [dimC10, dimC25]⟩]

/-- The diamond request: the root interface, no further constraint. -/
def reqDiamond : Requirements := Requirements.ofUri "app:root"

/-- Two implementations of one interface that differ only in version and
digest: used to show the cache state influences the chosen candidate. -/
def x1 : Implementation :=
  ⟨[1], Stability.stable, "*", [], [], "u-x1", "d-x1", []⟩

def x2 : Implementation :=
  ⟨[2], Stability.stable, "*", [], [], "u-x2", "d-x2", []⟩

/-- Feed set for the cache-sensitivity counterexample. -/
def wCache : FeedSet := [⟨"app:x", [x1, x2]⟩]

/-- Request for the cache-sensitivity counterexample. -/
def reqX : Requirements := Requirements.ofUri "app:x"

/-- A network delivering exactly the declared digests of the first
scenario's implementations, on the first attempt. -/
def netW0 : Network :=
  fun url _ =>
    if url = "u-ed15" then some "d-ed15"
    else if url = "u-sp21" then some "d-sp21"
    else none

/-- A network whose downloads always hash to a wrong digest (a corrupted or
tampered archive). -/
def netBad : Network := fun _ _ => some "d-wrong"

/-- The Selections the solver produces on the overlapping diamond. -/
def selDOk : Selections :=
  ⟨"app:root", "run",
   [("app:b", dimB), ("app:c", dimC25), ("app:a", dimA), ("app:root", dimRoot)]⟩

/-- A's dependency on C in the diamond. -/
def dimDepA : Dependency :=
  ⟨"app:c", ⟨some [1], true, some [3], false⟩, Importance.required, none⟩

/-- B's dependency on C in the diamond. -/
def dimDepB : Dependency :=
  ⟨"app:c", ⟨some [2], true, some [4], false⟩, Importance.required, none⟩

/-- The Selections the solver produces for the driver-built requirements on
the first scenario's feed set. -/
def selEd : Selections :=
  ⟨"app:editor", "run", [("app:spellcheck", sp21), ("app:editor", ed15)]⟩

/-! ## Basic lemmas -/

theorem contains_eq_true_iff (l : List String) (a : String) :
    l.contains a = true ↔ a ∈ l := by
  simp

theorem lookupSel_eq_none {sel : List (Interface × Implementation)} {i : Interface} :
    lookupSel sel i = none ↔ i ∉ sel.map Prod.fst := by
  induction sel with
  | nil => simp [lookupSel]
  | cons p ps ih =>
    simp only [lookupSel, List.map_cons, List.mem_cons]
    by_cases h : p.1 = i
    · simp [h]
    · have hne : ¬ i = p.1 := fun e => h e.symm
      rw [if_neg h, ih]
      tauto

theorem mem_of_lookupSel {sel : List (Interface × Implementation)} {i : Interface}
    {im : Implementation} : lookupSel sel i = some im → (i, im) ∈ sel := by
  induction sel with
  | nil => intro h; simp [lookupSel] at h
  | cons p ps ih =>
    intro h
    simp only [lookupSel] at h
    by_cases hp : p.1 = i
    · rw [if_pos hp] at h
      injection h with h2
      have hpair : p = (i, im) := by
        obtain ⟨a, b⟩ := p
        simp only at hp h2
        rw [hp, h2]
      rw [hpair]
      exact List.mem_cons_self _ _
    · rw [if_neg hp] at h
      exact List.mem_cons_of_mem _ (ih h)

theorem mem_insertPref {cached : List Digest} {a x : Implementation}
    {l : List Implementation} : x ∈ insertPref cached a l ↔ x = a ∨ x ∈ l := by
  induction l with
  | nil => simp [insertPref]
  | cons b bs ih =>
    by_cases h : strictlyPreferred cached b a = true
    · simp only [insertPref, if_pos h, List.mem_cons, ih]
      tauto
    · simp only [insertPref, if_neg h, List.mem_cons]

theorem mem_sortPref {cached : List Digest} {x : Implementation}
    {l : List Implementation} : x ∈ sortPref cached l ↔ x ∈ l := by
  induction l with
  | nil => simp [sortPref]
  | cons a as ih => simp [sortPref, mem_insertPref, ih]

theorem mem_candidates {world : FeedSet} {cached : List Digest} {a : Option Arch}
    {dep : Dependency} {im : Implementation} :
    im ∈ candidates world cached a dep ↔
      im ∈ implsFor world dep.iface ∧ archOk a im = true ∧
        dep.range.contains im.version = true := by
  simp [candidates, mem_sortPref, List.mem_filter, Bool.and_eq_true, and_assoc]

theorem iface_mem_of_implsFor {world : FeedSet} {i : Interface}
    {im : Implementation} (h : im ∈ implsFor world i) : i ∈ interfacesOf world := by
  simp only [implsFor, List.mem_flatMap, List.mem_filter] at h
  obtain ⟨f, ⟨hf, hif⟩, _⟩ := h
  simp only [interfacesOf, List.mem_dedup, List.mem_map]
  exact ⟨f, hf, by simpa using hif⟩

theorem le_foldr_maxdeps {l : List Implementation} {b : Nat} {im : Implementation}
    (h : im ∈ l) :
    im.dependencies.length ≤
      l.foldr (fun im2 m2 => max im2.dependencies.length m2) b := by
  induction l with
  | nil => cases h
  | cons x xs ih =>
    rcases List.mem_cons.mp h with h1 | h1
    · subst h1
      exact le_max_left _ _
    · exact le_trans (ih h1) (le_max_right _ _)

theorem init_le_foldr_maxdeps {l : List Implementation} {b : Nat} :
    b ≤ l.foldr (fun im2 m2 => max im2.dependencies.length m2) b := by
  induction l with
  | nil => exact le_refl _
  | cons x xs ih => exact le_trans ih (le_max_right _ _)

theorem deps_le_maxDeps {world : FeedSet} {i : Interface} {im : Implementation}
    (h : im ∈ implsFor world i) : im.dependencies.length ≤ maxDeps world := by
  simp only [implsFor, List.mem_flatMap, List.mem_filter] at h
  obtain ⟨f, ⟨hf, _⟩, him⟩ := h
  induction world with
  | nil => cases hf
  | cons g gs ih =>
    rcases List.mem_cons.mp hf with h1 | h1
    · subst h1
      exact le_foldr_maxdeps him
    · exact le_trans (ih h1) init_le_foldr_maxdeps

theorem filter_length_mono {α : Type} {p q : α → Bool}
    (h : ∀ x, q x = true → p x = true) (l : List α) :
    (l.filter q).length ≤ (l.filter p).length := by
  induction l with
  | nil => simp
  | cons x xs ih =>
    rw [List.filter_cons, List.filter_cons]
    by_cases hq : q x = true
    · rw [if_pos hq, if_pos (h x hq)]
      simp only [List.length_cons]
      omega
    · rw [if_neg hq]
      by_cases hp : p x = true
      · rw [if_pos hp]
        simp only [List.length_cons]
        omega
      · rw [if_neg hp]
        omega

theorem filter_length_lt {α : Type} {p q : α → Bool} {l : List α}
    (h : ∀ x, q x = true → p x = true) {i : α} (hi : i ∈ l)
    (hpi : p i = true) (hqi : q i = false) :
    (l.filter q).length < (l.filter p).length := by
  induction l with
  | nil => cases hi
  | cons x xs ih =>
    rw [List.filter_cons, List.filter_cons]
    rcases List.mem_cons.mp hi with h1 | h1
    · subst h1
      have hm := filter_length_mono h xs
      rw [if_pos hpi, if_neg (by simp [hqi])]
      simp only [List.length_cons]
      omega
    · have hlt := ih h1
      by_cases hq : q x = true
      · rw [if_pos hq, if_pos (h x hq)]
        simp only [List.length_cons]
        omega
      · rw [if_neg hq]
        by_cases hp : p x = true
        · rw [if_pos hp]
          simp only [List.length_cons]
          omega
        · rw [if_neg hp]
          omega

theorem remaining_lt {world : FeedSet} {sel : List (Interface × Implementation)}
    {i : Interface} {im : Implementation} (hiw : i ∈ interfacesOf world)
    (hnone : lookupSel sel i = none) :
    remaining world ((i, im) :: sel) < remaining world sel := by
  apply filter_length_lt (p := fun j => (lookupSel sel j).isNone)
      (q := fun j => (lookupSel ((i, im) :: sel) j).isNone)
  · intro x hx
    simp only [lookupSel] at hx
    by_cases hxi : i = x
    · simp [hxi] at hx
    · simpa [hxi] using hx
  · exact hiw
  · simp [hnone]
  · simp [lookupSel]

theorem remaining_nil (world : FeedSet) :
    remaining world [] = (interfacesOf world).length := by
  simp [remaining, lookupSel]

/-! ## Soundness of the search -/

theorem expand_sound (world : FeedSet) (cached : List Digest) (a : Option Arch) :
    ∀ fuel sel todo out, expand world cached a fuel sel todo = some out →
      (∀ i im, lookupSel sel i = some im → lookupSel out i = some im) ∧
      (∀ dep ∈ todo, depApplies a dep = true →
        dep.importance = Importance.required → SatBy out dep) ∧
      (∀ p ∈ out, p ∈ sel ∨ GoodEntry world a out p) := by
  intro fuel
  induction fuel with
  | zero =>
    intro sel todo out h
    cases todo with
    | nil =>
      simp only [expand, Option.some.injEq] at h
      subst h
      refine ⟨fun i im hh => hh, ?_, fun p hp => Or.inl hp⟩
      intro dep hdep
      simp at hdep
    | cons d rest =>
      simp only [expand] at h
      cases h
  | succ fuel ih =>
    intro sel todo out h
    cases todo with
    | nil =>
      simp only [expand, Option.some.injEq] at h
      subst h
      refine ⟨fun i im hh => hh, ?_, fun p hp => Or.inl hp⟩
      intro dep hdep
      simp at hdep
    | cons dep rest =>
      simp only [expand] at h
      by_cases hap : depApplies a dep = true
      · rw [if_pos hap] at h
        cases hl : lookupSel sel dep.iface with
        | some im =>
          rw [hl] at h
          simp only at h
          by_cases hc : dep.range.contains im.version = true
          · rw [if_pos hc] at h
            obtain ⟨hext, hsat, hgood⟩ := ih sel rest out h
            refine ⟨hext, ?_, hgood⟩
            intro d hd hdap hdreq
            rcases List.mem_cons.mp hd with rfl | hd2
            · exact ⟨im, hext _ _ hl, hc⟩
            · exact hsat d hd2 hdap hdreq
          · rw [if_neg hc] at h
            by_cases hr : dep.importance = Importance.required
            · rw [if_pos hr] at h
              cases h
            · rw [if_neg hr] at h
              obtain ⟨hext, hsat, hgood⟩ := ih sel rest out h
              refine ⟨hext, ?_, hgood⟩
              intro d hd hdap hdreq
              rcases List.mem_cons.mp hd with rfl | hd2
              · exact absurd hdreq hr
              · exact hsat d hd2 hdap hdreq
        | none =>
          rw [hl] at h
          simp only at h
          cases hf : (candidates world cached a dep).findSome?
              (fun im =>
                expand world cached a fuel ((dep.iface, im) :: sel)
                  (im.dependencies ++ rest)) with
          | some out2 =>
            rw [hf] at h
            simp only [Option.some.injEq] at h
            subst h
            obtain ⟨im, hmem, hexp⟩ := List.exists_of_findSome?_eq_some hf
            obtain ⟨hext, hsat, hgood⟩ := ih _ _ _ hexp
            have hlookup_cons :
                lookupSel ((dep.iface, im) :: sel) dep.iface = some im := by
              simp [lookupSel]
            have him_out : lookupSel out2 dep.iface = some im := hext _ _ hlookup_cons
            obtain ⟨himpl, harch, hcont⟩ := mem_candidates.mp hmem
            refine ⟨?_, ?_, ?_⟩
            · intro i' im' hsel'
              apply hext
              simp only [lookupSel]
              by_cases hi : dep.iface = i'
              · subst hi
                rw [hl] at hsel'
                cases hsel'
              · rw [if_neg hi]
                exact hsel'
            · intro d hd hdap hdreq
              rcases List.mem_cons.mp hd with rfl | hd2
              · exact ⟨im, him_out, hcont⟩
              · exact hsat d (List.mem_append.mpr (Or.inr hd2)) hdap hdreq
            · intro p hp
              rcases hgood p hp with hp2 | hp2
              · rcases List.mem_cons.mp hp2 with rfl | hp3
                · right
                  refine ⟨himpl, harch, ?_⟩
                  intro d hd hdap hdreq
                  exact hsat d (List.mem_append.mpr (Or.inl hd)) hdap hdreq
                · left
                  exact hp3
              · right
                exact hp2
          | none =>
            rw [hf] at h
            simp only at h
            by_cases hr : dep.importance = Importance.required
            · rw [if_pos hr] at h
              cases h
            · rw [if_neg hr] at h
              obtain ⟨hext, hsat, hgood⟩ := ih sel rest out h
              refine ⟨hext, ?_, hgood⟩
              intro d hd hdap hdreq
              rcases List.mem_cons.mp hd with rfl | hd2
              · exact absurd hdreq hr
              · exact hsat d hd2 hdap hdreq
      · rw [if_neg hap] at h
        obtain ⟨hext, hsat, hgood⟩ := ih sel rest out h
        refine ⟨hext, ?_, hgood⟩
        intro d hd hdap hdreq
        rcases List.mem_cons.mp hd with rfl | hd2
        · exact absurd hdap hap
        · exact hsat d hd2 hdap hdreq

theorem expand_nodupKeys (world : FeedSet) (cached : List Digest) (a : Option Arch) :
    ∀ fuel sel todo out, (sel.map Prod.fst).Nodup →
      expand world cached a fuel sel todo = some out →
      (out.map Prod.fst).Nodup := by
  intro fuel
  induction fuel with
  | zero =>
    intro sel todo out hnd h
    cases todo with
    | nil =>
      simp only [expand, Option.some.injEq] at h
      subst h
      exact hnd
    | cons d rest =>
      simp only [expand] at h
      cases h
  | succ fuel ih =>
    intro sel todo out hnd h
    cases todo with
    | nil =>
      simp only [expand, Option.some.injEq] at h
      subst h
      exact hnd
    | cons dep rest =>
      simp only [expand] at h
      by_cases hap : depApplies a dep = true
      · rw [if_pos hap] at h
        cases hl : lookupSel sel dep.iface with
        | some im =>
          rw [hl] at h
          simp only at h
          by_cases hc : dep.range.contains im.version = true
          · rw [if_pos hc] at h
            exact ih sel rest out hnd h
          · rw [if_neg hc] at h
            by_cases hr : dep.importance = Importance.required
            · rw [if_pos hr] at h
              cases h
            · rw [if_neg hr] at h
              exact ih sel rest out hnd h
        | none =>
          rw [hl] at h
          simp only at h
          cases hf : (candidates world cached a dep).findSome?
              (fun im =>
                expand world cached a fuel ((dep.iface, im) :: sel)
                  (im.dependencies ++ rest)) with
          | some out2 =>
            rw [hf] at h
            simp only [Option.some.injEq] at h
            subst h
            obtain ⟨im, hmem, hexp⟩ := List.exists_of_findSome?_eq_some hf
            apply ih _ _ _ _ hexp
            simp only [List.map_cons]
            exact List.Nodup.cons (lookupSel_eq_none.mp hl) hnd
          | none =>
            rw [hf] at h
            simp only at h
            by_cases hr : dep.importance = Importance.required
            · rw [if_pos hr] at h
              cases h
            · rw [if_neg hr] at h
              exact ih sel rest out hnd h
      · rw [if_neg hap] at h
        exact ih sel rest out hnd h

/-! ## Completeness of the search -/

theorem expand_complete (world : FeedSet) (cached : List Digest) (a : Option Arch)
    (F : Interface → Option Implementation) (hF : Solution world a F) :
    ∀ fuel sel todo,
      searchBound world sel todo ≤ fuel →
      (∀ i im, lookupSel sel i = some im → F i = some im) →
      (∀ dep ∈ todo, depApplies a dep = true →
        dep.importance = Importance.required → SatByF F dep) →
      (expand world cached a fuel sel todo).isSome = true := by
  intro fuel
  induction fuel with
  | zero =>
    intro sel todo hb hext htodo
    cases todo with
    | nil => simp [expand]
    | cons dep rest =>
      exfalso
      simp only [searchBound, List.length_cons] at hb
      set R := remaining world sel * (maxDeps world + 1) with hR
      omega
  | succ fuel ih =>
    intro sel todo hb hext htodo
    cases todo with
    | nil => simp [expand]
    | cons dep rest =>
      have hbrest : searchBound world sel rest ≤ fuel := by
        simp only [searchBound, List.length_cons] at hb ⊢
        set R := remaining world sel * (maxDeps world + 1) with hR
        omega
      simp only [expand]
      by_cases hap : depApplies a dep = true
      · rw [if_pos hap]
        cases hl : lookupSel sel dep.iface with
        | some im =>
          simp only
          by_cases hc : dep.range.contains im.version = true
          · rw [if_pos hc]
            exact ih sel rest hbrest hext
              (fun d hd => htodo d (List.mem_cons_of_mem _ hd))
          · rw [if_neg hc]
            by_cases hr : dep.importance = Importance.required
            · exfalso
              obtain ⟨imF, hFi, hcont⟩ := htodo dep (List.mem_cons_self _ _) hap hr
              have hFim : F dep.iface = some im := hext _ _ hl
              rw [hFim] at hFi
              injection hFi with hFi
              subst hFi
              exact hc hcont
            · rw [if_neg hr]
              exact ih sel rest hbrest hext
                (fun d hd => htodo d (List.mem_cons_of_mem _ hd))
        | none =>
          simp only
          cases hf : (candidates world cached a dep).findSome?
              (fun im =>
                expand world cached a fuel ((dep.iface, im) :: sel)
                  (im.dependencies ++ rest)) with
          | some out2 => simp
          | none =>
            simp only
            by_cases hr : dep.importance = Importance.required
            · exfalso
              obtain ⟨imF, hFi, hcont⟩ := htodo dep (List.mem_cons_self _ _) hap hr
              obtain ⟨himpl, harch⟩ := hF.1 _ _ hFi
              have hcand : imF ∈ candidates world cached a dep :=
                mem_candidates.mpr ⟨himpl, harch, hcont⟩
              have hbranch :
                  (expand world cached a fuel ((dep.iface, imF) :: sel)
                    (imF.dependencies ++ rest)).isSome = true := by
                apply ih
                · have h1 : imF.dependencies.length ≤ maxDeps world :=
                    deps_le_maxDeps himpl
                  have h2 : remaining world ((dep.iface, imF) :: sel) + 1 ≤
                      remaining world sel :=
                    remaining_lt (iface_mem_of_implsFor himpl) hl
                  have h5 : remaining world ((dep.iface, imF) :: sel) *
                        (maxDeps world + 1) + (maxDeps world + 1) ≤
                      remaining world sel * (maxDeps world + 1) := by
                    calc remaining world ((dep.iface, imF) :: sel) *
                          (maxDeps world + 1) + (maxDeps world + 1)
                        = (remaining world ((dep.iface, imF) :: sel) + 1) *
                          (maxDeps world + 1) := by ring
                      _ ≤ remaining world sel * (maxDeps world + 1) :=
                          mul_le_mul_right' h2 _
                  simp only [searchBound, List.length_cons, List.length_append] at hb ⊢
                  set A := remaining world ((dep.iface, imF) :: sel) *
                    (maxDeps world + 1) with hA
                  set B := remaining world sel * (maxDeps world + 1) with hB
                  set C := maxDeps world with hC
                  omega
                · intro i' im' hsel'
                  simp only [lookupSel] at hsel'
                  by_cases hi : dep.iface = i'
                  · rw [if_pos hi] at hsel'
                    injection hsel' with e
                    rw [← hi, ← e]
                    exact hFi
                  · rw [if_neg hi] at hsel'
                    exact hext _ _ hsel'
                · intro d hd hdap hdreq
                  rcases List.mem_append.mp hd with hd1 | hd2
                  · exact hF.2 _ _ hFi d hd1 hdap hdreq
                  · exact htodo d (List.mem_cons_of_mem _ hd2) hdap hdreq
              have hnone := List.findSome?_eq_none_iff.mp hf imF hcand
              rw [hnone] at hbranch
              simp at hbranch
            · rw [if_neg hr]
              exact ih sel rest hbrest hext
                (fun d hd => htodo d (List.mem_cons_of_mem _ hd))
      · rw [if_neg hap]
        exact ih sel rest hbrest hext
          (fun d hd => htodo d (List.mem_cons_of_mem _ hd))

/-! ## Solve-level consequences -/

theorem solve_ok_valid {world : FeedSet} {cached : List Digest} {req : Requirements}
    {sel : Selections} (h : solve world cached req = Except.ok sel) :
    ValidSelections world req sel := by
  unfold solve at h
  cases he : expand world cached req.archOverride (solveFuel world) [] [rootDep req] with
  | none =>
    rw [he] at h
    cases h
  | some entries =>
    rw [he] at h
    injection h with h
    obtain ⟨hext, hsat, hgood⟩ := expand_sound world cached req.archOverride _ _ _ _ he
    have hnd := expand_nodupKeys world cached req.archOverride _ _ _ _ (by simp) he
    subst h
    refine ⟨rfl, rfl, hnd, ?_, ?_⟩
    · intro p hp
      rcases hgood p hp with h1 | h1
      · simp at h1
      · exact h1
    · exact hsat (rootDep req) (List.mem_cons_self _ _) rfl rfl

theorem satisfiable_of_valid {world : FeedSet} {req : Requirements} {sel : Selections}
    (h : ValidSelections world req sel) : Satisfiable world req := by
  refine ⟨fun i => lookupSel sel.entries i, ⟨?_, ?_⟩, ?_⟩
  · intro i im hlk
    have hp := h.2.2.2.1 _ (mem_of_lookupSel hlk)
    exact ⟨hp.1, hp.2.1⟩
  · intro i im hlk dep hd hdap hdreq
    exact (h.2.2.2.1 _ (mem_of_lookupSel hlk)).2.2 dep hd hdap hdreq
  · exact h.2.2.2.2

theorem solve_complete {world : FeedSet} {cached : List Digest} {req : Requirements}
    (hs : Satisfiable world req) :
    ∃ sel, solve world cached req = Except.ok sel := by
  obtain ⟨F, hF, hroot⟩ := hs
  have h := expand_complete world cached req.archOverride F hF
    (solveFuel world) [] [rootDep req] ?_ ?_ ?_
  · cases he : expand world cached req.archOverride (solveFuel world) [] [rootDep req] with
    | none =>
      rw [he] at h
      simp at h
    | some entries =>
      refine ⟨⟨req.interfaceUri, req.effectiveCommand, entries⟩, ?_⟩
      unfold solve
      rw [he]
  · simp [searchBound, remaining_nil, solveFuel]
  · intro i im hlk
    simp [lookupSel] at hlk
  · intro dep hd hdap hdreq
    rcases List.mem_cons.mp hd with rfl | hd2
    · exact hroot
    · simp at hd2

theorem solve_error_shape {world : FeedSet} {cached : List Digest} {req : Requirements}
    {e : SolveFailure} (h : solve world cached req = Except.error e) :
    e = SolveFailure.unsatisfiable req.interfaceUri := by
  unfold solve at h
  cases he : expand world cached req.archOverride (solveFuel world) [] [rootDep req] with
  | none =>
    rw [he] at h
    injection h with h
    exact h.symm
  | some entries =>
    rw [he] at h
    cases h

theorem solve_error_of_unsat {world : FeedSet} {cached : List Digest}
    {req : Requirements} (h : ¬ Satisfiable world req) :
    solve world cached req = Except.error (SolveFailure.unsatisfiable req.interfaceUri) := by
  cases hs : solve world cached req with
  | ok sel => exact absurd (satisfiable_of_valid (solve_ok_valid hs)) h
  | error e =>
    rw [solve_error_shape hs]

/-! ## Fetch-layer lemmas -/

theorem ensureCached_hit {net : Network} {mA : Nat} {store : Store}
    {im : Implementation} (h : store.contains im.digest = true) :
    ensureCached net mA store im = (Except.ok (store, storePath im.digest), []) := by
  unfold ensureCached
  rw [if_pos h]

theorem ensureCached_ok_facts {net : Network} {mA : Nat} {store : Store}
    {im : Implementation} {s2 : Store} {p : String} {evs : List Event}
    (h : ensureCached net mA store im = (Except.ok (s2, p), evs)) :
    p = storePath im.digest ∧ s2.contains im.digest = true ∧ ∀ d ∈ store, d ∈ s2 := by
  unfold ensureCached at h
  by_cases hc : store.contains im.digest = true
  · rw [if_pos hc] at h
    simp only [Prod.mk.injEq, Except.ok.injEq] at h
    obtain ⟨⟨hs, hp⟩, _⟩ := h
    exact ⟨hp.symm, hs ▸ hc, fun d hd => hs ▸ hd⟩
  · rw [if_neg hc] at h
    cases hdl : downloadGo net im.sourceUrl 0 mA with
    | mk res evs2 =>
      rw [hdl] at h
      cases res with
      | none => simp at h
      | some d =>
        simp only at h
        by_cases he : d = im.digest
        · rw [if_pos he] at h
          simp only [Prod.mk.injEq, Except.ok.injEq] at h
          obtain ⟨⟨hs, hp⟩, _⟩ := h
          refine ⟨hp.symm, ?_, ?_⟩
          · rw [← hs]
            simp
          · intro d2 hd2
            rw [← hs]
            exact List.mem_cons_of_mem _ hd2
        · rw [if_neg he] at h
          simp at h

theorem ensureCached_second {net net2 : Network} {mA mA2 : Nat} {store : Store}
    {im : Implementation} {s2 : Store} {p : String} {evs : List Event}
    (h : ensureCached net mA store im = (Except.ok (s2, p), evs)) :
    ensureCached net2 mA2 s2 im = (Except.ok (s2, p), []) := by
  obtain ⟨hp, hc, _⟩ := ensureCached_ok_facts h
  rw [hp]
  exact ensureCached_hit hc

theorem downloadGo_events {net : Network} {url : String} :
    ∀ rem attempt res evs, downloadGo net url attempt rem = (res, evs) →
      ∀ e ∈ evs, ∃ k r, e = Event.download url k r := by
  intro rem
  induction rem with
  | zero =>
    intro attempt res evs h e he
    simp only [downloadGo, Prod.mk.injEq] at h
    rw [← h.2] at he
    cases he
  | succ rem ih =>
    intro attempt res evs h e he
    simp only [downloadGo] at h
    cases hn : net url attempt with
    | some d =>
      rw [hn] at h
      simp only [Prod.mk.injEq] at h
      rw [← h.2] at he
      rcases List.mem_cons.mp he with rfl | h2
      · exact ⟨attempt, some d, rfl⟩
      · cases h2
    | none =>
      rw [hn] at h
      simp only [Prod.mk.injEq] at h
      rw [← h.2] at he
      rcases List.mem_cons.mp he with rfl | h2
      · exact ⟨attempt, none, rfl⟩
      · exact ih (attempt + 1) _ _ rfl e h2

theorem ensureCached_events {net : Network} {mA : Nat} {store : Store}
    {im : Implementation} {res : Except FetchFailure (Store × String)}
    {evs : List Event} (h : ensureCached net mA store im = (res, evs)) :
    ∀ e ∈ evs, (∃ k r, e = Event.download im.sourceUrl k r) ∨
      e = Event.fetched im.digest := by
  unfold ensureCached at h
  by_cases hc : store.contains im.digest = true
  · rw [if_pos hc] at h
    simp only [Prod.mk.injEq] at h
    rw [← h.2]
    intro e he
    cases he
  · rw [if_neg hc] at h
    cases hdl : downloadGo net im.sourceUrl 0 mA with
    | mk dres evs2 =>
      rw [hdl] at h
      cases dres with
      | none =>
        simp only [Prod.mk.injEq] at h
        rw [← h.2]
        intro e he
        exact Or.inl (downloadGo_events _ _ _ _ hdl e he)
      | some d =>
        simp only at h
        by_cases he2 : d = im.digest
        · rw [if_pos he2] at h
          simp only [Prod.mk.injEq] at h
          rw [← h.2]
          intro e he
          rcases List.mem_append.mp he with h1 | h1
          · exact Or.inl (downloadGo_events _ _ _ _ hdl e h1)
          · rcases List.mem_cons.mp h1 with rfl | h2
            · exact Or.inr rfl
            · cases h2
        · rw [if_neg he2] at h
          simp only [Prod.mk.injEq] at h
          rw [← h.2]
          intro e he
          exact Or.inl (downloadGo_events _ _ _ _ hdl e he)

theorem requestedOf_ensureCached {net : Network} {mA : Nat} {store : Store}
    {im : Implementation} {res : Except FetchFailure (Store × String)}
    {evs : List Event} (h : ensureCached net mA store im = (res, evs)) :
    requestedOf evs = [] := by
  rw [requestedOf, List.filterMap_eq_nil_iff]
  intro e he
  rcases ensureCached_events h e he with ⟨k, r, rfl⟩ | rfl <;> rfl

theorem no_started_ensureCached {net : Network} {mA : Nat} {store : Store}
    {im : Implementation} {res : Except FetchFailure (Store × String)}
    {evs : List Event} (h : ensureCached net mA store im = (res, evs)) :
    ∀ c p, Event.started c p ∉ evs := by
  intro c p hmem
  rcases ensureCached_events h _ hmem with ⟨k, r, he⟩ | he <;> cases he

theorem downloadGo_some {net : Network} {url : String} :
    ∀ rem attempt d evs, downloadGo net url attempt rem = (some d, evs) →
      ∃ pre, evs = pre ++ [Event.download url (attempt + pre.length) (some d)] ∧
        ∀ e ∈ pre, ∃ k, e = Event.download url k none := by
  intro rem
  induction rem with
  | zero =>
    intro attempt d evs h
    simp only [downloadGo, Prod.mk.injEq] at h
    cases h.1
  | succ rem ih =>
    intro attempt d evs h
    simp only [downloadGo] at h
    cases hn : net url attempt with
    | some d2 =>
      rw [hn] at h
      simp only [Prod.mk.injEq, Option.some.injEq] at h
      obtain ⟨hd, hevs⟩ := h
      subst hd
      refine ⟨[], ?_, ?_⟩
      · rw [← hevs]
        simp
      · intro e he
        cases he
    | none =>
      rw [hn] at h
      simp only [Prod.mk.injEq] at h
      obtain ⟨hd, hevs⟩ := h
      cases hr : downloadGo net url (attempt + 1) rem with
      | mk res2 evs2 =>
        rw [hr] at hd hevs
        simp only at hd hevs
        obtain ⟨pre, hp, hpre⟩ := ih (attempt + 1) d evs2 (by rw [hr, hd])
        refine ⟨Event.download url attempt none :: pre, ?_, ?_⟩
        · rw [← hevs, hp]
          simp only [List.cons_append, List.length_cons]
          have : attempt + (pre.length + 1) = attempt + 1 + pre.length := by omega
          rw [this]
        · intro e he
          rcases List.mem_cons.mp he with rfl | h2
          · exact ⟨attempt, rfl⟩
          · exact hpre e h2

theorem ensureCached_mismatch {net : Network} {mA : Nat} {store : Store}
    {im : Implementation} {d : Digest} {evs : List Event}
    (hc : store.contains im.digest = false)
    (hdl : downloadGo net im.sourceUrl 0 mA = (some d, evs))
    (hne : d ≠ im.digest) :
    ensureCached net mA store im =
      (Except.error (FetchFailure.digestMismatch im.digest d), evs) := by
  unfold ensureCached
  rw [if_neg (by rw [hc]; simp), hdl]
  simp only
  rw [if_neg hne]

theorem fetchAll_store_mono {net : Network} {mA : Nat} :
    ∀ ims store s evs out, fetchAll net mA store ims = (s, evs, out) →
      ∀ d ∈ store, d ∈ s := by
  intro ims
  induction ims with
  | nil =>
    intro store s evs out h d hd
    simp only [fetchAll, Prod.mk.injEq] at h
    rw [← h.1]
    exact hd
  | cons im ims ih =>
    intro store s evs out h d hd
    simp only [fetchAll] at h
    cases hec : ensureCached net mA store im with
    | mk res evs2 =>
      rw [hec] at h
      cases res with
      | error e =>
        simp only [Prod.mk.injEq] at h
        rw [← h.1]
        exact hd
      | ok v =>
        obtain ⟨s2, p⟩ := v
        simp only at h
        cases hfa : fetchAll net mA s2 ims with
        | mk s3 r2 =>
          obtain ⟨evs3, out3⟩ := r2
          rw [hfa] at h
          simp only [Prod.mk.injEq] at h
          have hmono := (ensureCached_ok_facts hec).2.2
          exact h.1 ▸ ih s2 s3 evs3 out3 hfa d (hmono d hd)

theorem fetchAll_success_cached {net : Network} {mA : Nat} :
    ∀ ims store s evs, fetchAll net mA store ims = (s, evs, none) →
      ∀ im ∈ ims, im.digest ∈ s := by
  intro ims
  induction ims with
  | nil =>
    intro store s evs h im him
    cases him
  | cons im0 ims ih =>
    intro store s evs h im him
    simp only [fetchAll] at h
    cases hec : ensureCached net mA store im0 with
    | mk res evs2 =>
      rw [hec] at h
      cases res with
      | error e =>
        simp only [Prod.mk.injEq] at h
        cases h.2.2
      | ok v =>
        obtain ⟨s2, p⟩ := v
        simp only at h
        cases hfa : fetchAll net mA s2 ims with
        | mk s3 r2 =>
          obtain ⟨evs3, out3⟩ := r2
          rw [hfa] at h
          simp only [Prod.mk.injEq] at h
          obtain ⟨hs, _, hout⟩ := h
          subst hout
          rcases List.mem_cons.mp him with rfl | him2
          · have hdg := (ensureCached_ok_facts hec).2.1
            have hmem : im.digest ∈ s2 := (contains_eq_true_iff _ _).mp hdg
            exact hs ▸ fetchAll_store_mono ims s2 s3 evs3 none hfa _ hmem
          · exact hs ▸ ih s2 s3 evs3 hfa im him2

theorem fetchAll_events_eq_blocks {net : Network} {mA : Nat} :
    ∀ ims store, (fetchAll net mA store ims).2.1 =
      (fetchBlocks net mA store ims).flatten := by
  intro ims
  induction ims with
  | nil =>
    intro store
    simp [fetchAll, fetchBlocks]
  | cons im ims ih =>
    intro store
    simp only [fetchAll, fetchBlocks]
    cases hec : ensureCached net mA store im with
    | mk res evs2 =>
      cases res with
      | ok v =>
        obtain ⟨s2, p⟩ := v
        simp only [List.flatten_cons, List.cons_append, List.append_assoc]
        rw [ih s2]
      | error e =>
        simp

theorem fetchAll_success_blocks {net : Network} {mA : Nat} :
    ∀ ims store s evs, fetchAll net mA store ims = (s, evs, none) →
      List.Forall₂
        (fun b im => ∃ t, b = Event.fetchRequested im.digest :: t ∧ requestedOf t = [])
        (fetchBlocks net mA store ims) ims := by
  intro ims
  induction ims with
  | nil =>
    intro store s evs _
    simp only [fetchBlocks]
    exact List.Forall₂.nil
  | cons im ims ih =>
    intro store s evs h
    simp only [fetchAll] at h
    simp only [fetchBlocks]
    cases hec : ensureCached net mA store im with
    | mk res evs2 =>
      rw [hec] at h
      cases res with
      | error e =>
        simp only [Prod.mk.injEq] at h
        cases h.2.2
      | ok v =>
        obtain ⟨s2, p⟩ := v
        simp only at h ⊢
        cases hfa : fetchAll net mA s2 ims with
        | mk s3 r2 =>
          obtain ⟨evs3, out3⟩ := r2
          rw [hfa] at h
          simp only [Prod.mk.injEq] at h
          obtain ⟨_, _, hout⟩ := h
          subst hout
          exact List.Forall₂.cons
            ⟨evs2, rfl, requestedOf_ensureCached hec⟩ (ih s2 s3 evs3 hfa)

theorem fetchAll_success_requested {net : Network} {mA : Nat} :
    ∀ ims store s evs, fetchAll net mA store ims = (s, evs, none) →
      requestedOf evs = ims.map (fun im => im.digest) := by
  intro ims
  induction ims with
  | nil =>
    intro store s evs h
    simp only [fetchAll, Prod.mk.injEq] at h
    rw [← h.2.1]
    rfl
  | cons im ims ih =>
    intro store s evs h
    simp only [fetchAll] at h
    cases hec : ensureCached net mA store im with
    | mk res evs2 =>
      rw [hec] at h
      cases res with
      | error e =>
        simp only [Prod.mk.injEq] at h
        cases h.2.2
      | ok v =>
        obtain ⟨s2, p⟩ := v
        simp only at h
        cases hfa : fetchAll net mA s2 ims with
        | mk s3 r2 =>
          obtain ⟨evs3, out3⟩ := r2
          rw [hfa] at h
          simp only [Prod.mk.injEq] at h
          obtain ⟨_, hevs, hout⟩ := h
          subst hout
          rw [← hevs]
          have h1 : requestedOf evs2 = [] := requestedOf_ensureCached hec
          simp only [requestedOf, List.cons_append, List.filterMap_cons,
            List.filterMap_append, List.map_cons]
          rw [show (List.filterMap (fun e =>
            match e with
            | Event.fetchRequested d => some d
            | _ => none) evs2) = [] from h1]
          have h2 := ih s2 s3 evs3 hfa
          simp only [requestedOf] at h2
          rw [h2]
          rfl

theorem fetchAll_no_started {net : Network} {mA : Nat} :
    ∀ ims store s evs out, fetchAll net mA store ims = (s, evs, out) →
      ∀ c p, Event.started c p ∉ evs := by
  intro ims
  induction ims with
  | nil =>
    intro store s evs out h c p hmem
    simp only [fetchAll, Prod.mk.injEq] at h
    rw [← h.2.1] at hmem
    cases hmem
  | cons im ims ih =>
    intro store s evs out h c p hmem
    simp only [fetchAll] at h
    cases hec : ensureCached net mA store im with
    | mk res evs2 =>
      rw [hec] at h
      cases res with
      | error e =>
        simp only [Prod.mk.injEq] at h
        rw [← h.2.1] at hmem
        rcases List.mem_cons.mp hmem with he | he
        · cases he
        · exact no_started_ensureCached hec c p he
      | ok v =>
        obtain ⟨s2, p2⟩ := v
        simp only at h
        cases hfa : fetchAll net mA s2 ims with
        | mk s3 r2 =>
          obtain ⟨evs3, out3⟩ := r2
          rw [hfa] at h
          simp only [Prod.mk.injEq] at h
          rw [← h.2.1] at hmem
          rcases List.mem_cons.mp hmem with he | he
          · cases he
          · rcases List.mem_append.mp he with h1 | h1
            · exact no_started_ensureCached hec c p h1
            · exact ih s2 s3 evs3 out3 hfa c p h1

/-! ## Driver shape lemmas -/

theorem startExecutor_ok {sel : Selections} {ev : Event}
    (h : startExecutor sel = Except.ok ev) :
    ∃ root entry, lookupSel sel.entries sel.interfaceUri = some root ∧
      lookupCommand root.commands sel.commandName = some entry ∧
      ev = Event.started sel.commandName entry := by
  unfold startExecutor at h
  cases hr : lookupSel sel.entries sel.interfaceUri with
  | none =>
    rw [hr] at h
    cases h
  | some root =>
    rw [hr] at h
    simp only at h
    cases hcmd : lookupCommand root.commands sel.commandName with
    | none =>
      rw [hcmd] at h
      cases h
    | some entry =>
      rw [hcmd] at h
      injection h with h
      exact ⟨root, entry, rfl, hcmd, h.symm⟩

theorem runDriver_ok_shape {world : FeedSet} {net : Network} {mA : Nat}
    {store : Store} {argv : List String} {s : Store} {evs : List Event}
    (h : runDriver world net mA store argv = (s, evs, none)) :
    ∃ req sel fevs entry,
      driverRequirements argv = some req ∧
      solve world store req = Except.ok sel ∧
      fetchAll net mA store (getUncachedImplementations store sel) = (s, fevs, none) ∧
      startExecutor sel = Except.ok (Event.started sel.commandName entry) ∧
      evs = Event.solved :: (fevs ++ [Event.started sel.commandName entry]) := by
  unfold runDriver at h
  cases hreq : driverRequirements argv with
  | none =>
    rw [hreq] at h
    simp at h
  | some req =>
    rw [hreq] at h
    simp only at h
    cases hsv : solve world store req with
    | error e =>
      rw [hsv] at h
      simp at h
    | ok sel =>
      rw [hsv] at h
      simp only at h
      cases hfa : fetchAll net mA store (getUncachedImplementations store sel) with
      | mk s2 r2 =>
        obtain ⟨fevs, out2⟩ := r2
        rw [hfa] at h
        cases out2 with
        | some e => simp at h
        | none =>
          simp only at h
          cases hst : startExecutor sel with
          | error e =>
            rw [hst] at h
            simp at h
          | ok ev =>
            rw [hst] at h
            simp only [Prod.mk.injEq] at h
            obtain ⟨hs, hevs, _⟩ := h
            obtain ⟨root, entry, _, _, hev⟩ := startExecutor_ok hst
            subst hev
            subst hs
            exact ⟨req, sel, fevs, entry, rfl, hsv, hfa, hst, hevs.symm⟩

theorem runDriver_store_mono {world : FeedSet} {net : Network} {mA : Nat}
    {store : Store} {argv : List String} {s : Store} {evs : List Event}
    {out : Option DriverFailure}
    (h : runDriver world net mA store argv = (s, evs, out)) :
    ∀ d ∈ store, d ∈ s := by
  unfold runDriver at h
  cases hreq : driverRequirements argv with
  | none =>
    rw [hreq] at h
    simp only [Prod.mk.injEq] at h
    intro d hd
    exact h.1 ▸ hd
  | some req =>
    rw [hreq] at h
    simp only at h
    cases hsv : solve world store req with
    | error e =>
      rw [hsv] at h
      simp only [Prod.mk.injEq] at h
      intro d hd
      exact h.1 ▸ hd
    | ok sel =>
      rw [hsv] at h
      simp only at h
      cases hfa : fetchAll net mA store (getUncachedImplementations store sel) with
      | mk s2 r2 =>
        obtain ⟨fevs, out2⟩ := r2
        rw [hfa] at h
        cases out2 with
        | some e =>
          simp only [Prod.mk.injEq] at h
          intro d hd
          exact h.1 ▸ fetchAll_store_mono _ _ _ _ _ hfa d hd
        | none =>
          simp only at h
          cases hst : startExecutor sel with
          | error e =>
            rw [hst] at h
            simp only [Prod.mk.injEq] at h
            intro d hd
            exact h.1 ▸ fetchAll_store_mono _ _ _ _ _ hfa d hd
          | ok ev =>
            rw [hst] at h
            simp only [Prod.mk.injEq] at h
            intro d hd
            exact h.1 ▸ fetchAll_store_mono _ _ _ _ _ hfa d hd

theorem runDriver_solveFailed_shape {world : FeedSet} {net : Network} {mA : Nat}
    {store : Store} {argv : List String} {s : Store} {evs : List Event}
    {e : SolveFailure}
    (h : runDriver world net mA store argv = (s, evs, some (DriverFailure.solveFailed e))) :
    s = store ∧ evs = [] := by
  unfold runDriver at h
  cases hreq : driverRequirements argv with
  | none =>
    rw [hreq] at h
    simp at h
  | some req =>
    rw [hreq] at h
    simp only at h
    cases hsv : solve world store req with
    | error e2 =>
      rw [hsv] at h
      simp only [Prod.mk.injEq] at h
      exact ⟨h.1.symm, h.2.1.symm⟩
    | ok sel =>
      rw [hsv] at h
      simp only at h
      cases hfa : fetchAll net mA store (getUncachedImplementations store sel) with
      | mk s2 r2 =>
        obtain ⟨fevs, out2⟩ := r2
        rw [hfa] at h
        cases out2 with
        | some e2 => simp at h
        | none =>
          simp only at h
          cases hst : startExecutor sel with
          | error e2 =>
            rw [hst] at h
            simp at h
          | ok ev =>
            rw [hst] at h
            simp at h

theorem runDriver_failure_no_started {world : FeedSet} {net : Network} {mA : Nat}
    {store : Store} {argv : List String} {s : Store} {evs : List Event}
    {f : DriverFailure}
    (h : runDriver world net mA store argv = (s, evs, some f))
    (hf : (∃ e, f = DriverFailure.solveFailed e) ∨
      (∃ e, f = DriverFailure.fetchFailed e) ∨ f = DriverFailure.missingArgument) :
    ∀ c p, Event.started c p ∉ evs := by
  unfold runDriver at h
  cases hreq : driverRequirements argv with
  | none =>
    rw [hreq] at h
    simp only [Prod.mk.injEq] at h
    intro c p hm
    rw [← h.2.1] at hm
    cases hm
  | some req =>
    rw [hreq] at h
    simp only at h
    cases hsv : solve world store req with
    | error e =>
      rw [hsv] at h
      simp only [Prod.mk.injEq] at h
      intro c p hm
      rw [← h.2.1] at hm
      cases hm
    | ok sel =>
      rw [hsv] at h
      simp only at h
      cases hfa : fetchAll net mA store (getUncachedImplementations store sel) with
      | mk s2 r2 =>
        obtain ⟨fevs, out2⟩ := r2
        rw [hfa] at h
        cases out2 with
        | some e =>
          simp only [Prod.mk.injEq] at h
          intro c p hm
          rw [← h.2.1] at hm
          rcases List.mem_cons.mp hm with he | he
          · cases he
          · exact fetchAll_no_started _ _ _ _ _ hfa c p he
        | none =>
          simp only at h
          cases hst : startExecutor sel with
          | error e =>
            rw [hst] at h
            simp only [Prod.mk.injEq] at h
            have hlf : f = DriverFailure.launchFailed e := by
              have := h.2.2
              injection this with this
              exact this.symm
            subst hlf
            rcases hf with ⟨e2, he2⟩ | ⟨e2, he2⟩ | he2 <;> cases he2
          | ok ev =>
            rw [hst] at h
            simp at h

/-! ## Claim theorems -/

/-- C1: For every Requirements value whose Feed set is satisfiable, Solve
terminates (it is a total function here) and returns a Selections in which
every applicable required Dependency of every selected Implementation is
satisfied by the selected Implementation of its target Interface, with a
version inside the accepted range; if no consistent Selections exists, Solve
returns an UnsatisfiableError instead. -/
theorem solve_spec (world : FeedSet) (cached : List Digest) (req : Requirements) :
    (Satisfiable world req →
      ∃ sel, solve world cached req = Except.ok sel ∧ ValidSelections world req sel) ∧
    (¬ Satisfiable world req →
      solve world cached req = Except.error (SolveFailure.unsatisfiable req.interfaceUri)) := by
  constructor
  · intro hs
    obtain ⟨sel, hsel⟩ := @solve_complete world cached req hs
    exact ⟨sel, hsel, solve_ok_valid hsel⟩
  · exact solve_error_of_unsat

theorem f0_satisfiable : Satisfiable w0 r0 := by
  refine ⟨f0, ⟨?_, ?_⟩, ⟨ed15, by decide, by decide⟩⟩
  · intro i im h
    unfold f0 at h
    split_ifs at h with h1 h2
    · subst h1
      injection h with h
      subst h
      exact ⟨by decide, by decide⟩
    · subst h2
      injection h with h
      subst h
      exact ⟨by decide, by decide⟩
  · intro i im h dep hd hdap hdreq
    unfold f0 at h
    split_ifs at h with h1 h2
    · subst h1
      injection h with h
      subst h
      have hdep : dep = ⟨"app:spellcheck", ⟨some [2], true, some [3], false⟩,
          Importance.required, none⟩ := by
        simpa [ed15] using hd
      subst hdep
      exact ⟨sp21, by decide, by decide⟩
    · subst h2
      injection h with h
      subst h
      simp [sp21] at hd

/-- Witness for C1 at the spec's first concrete scenario. -/
theorem solve_spec_witness :
    ∃ sel, solve w0 [] r0 = Except.ok sel ∧ ValidSelections w0 r0 sel :=
  (solve_spec w0 [] r0).1 f0_satisfiable

/-- C3: Every Selections value returned by Solve contains at most one
Implementation per Interface; when two selected Implementations both carry
an applicable required dependency on the same Interface, the single selected
implementation of that Interface lies inside both version ranges; and on a
concrete diamond with disjoint effective ranges Solve fails with an
UnsatisfiableError. -/
theorem selections_unify :
    (∀ world cached req sel, solve world cached req = Except.ok sel →
      (sel.entries.map Prod.fst).Nodup ∧
      (∀ i1 im1 i2 im2 d1 d2, (i1, im1) ∈ sel.entries → (i2, im2) ∈ sel.entries →
        d1 ∈ im1.dependencies → d2 ∈ im2.dependencies → d1.iface = d2.iface →
        depApplies req.archOverride d1 = true → depApplies req.archOverride d2 = true →
        d1.importance = Importance.required → d2.importance = Importance.required →
        ∃ c, lookupSel sel.entries d1.iface = some c ∧
          d1.range.contains c.version = true ∧ d2.range.contains c.version = true)) ∧
    solve wDiamondBad [] reqDiamond =
      Except.error (SolveFailure.unsatisfiable "app:root") := by
  constructor
  · intro world cached req sel hsv
    have hv := solve_ok_valid hsv
    refine ⟨hv.2.2.1, ?_⟩
    intro i1 im1 i2 im2 d1 d2 h1 h2 hd1 hd2 hiface hap1 hap2 hr1 hr2
    obtain ⟨c1, hc1, hcont1⟩ := (hv.2.2.2.1 _ h1).2.2 d1 hd1 hap1 hr1
    obtain ⟨c2, hc2, hcont2⟩ := (hv.2.2.2.1 _ h2).2.2 d2 hd2 hap2 hr2
    rw [hiface] at hc1
    rw [hc2] at hc1
    injection hc1 with e
    refine ⟨c2, by rw [hiface]; exact hc2, ?_, hcont2⟩
    rw [e]
    exact hcont1
  · rfl

/-- Witness for C3 at the overlapping diamond: a single implementation of C,
inside both A's and B's accepted ranges. -/
theorem selections_unify_witness :
    (selDOk.entries.map Prod.fst).Nodup ∧
    ∃ c, lookupSel selDOk.entries dimDepA.iface = some c ∧
      dimDepA.range.contains c.version = true ∧
      dimDepB.range.contains c.version = true := by
  have h := selections_unify.1 wDiamondOk [] reqDiamond selDOk rfl
  exact ⟨h.1, h.2 "app:a" dimA "app:b" dimB dimDepA dimDepB (by decide) (by decide)
    (by decide) (by decide) (by decide) (by decide) (by decide) (by decide) (by decide)⟩

/-- C4 counterexample: two Solve runs over the identical Feed set and the
identical Requirements value but different local cache contents return
different Selections — the cache state is a further input, because the
preference order puts already-cached candidates first. -/
theorem solve_cache_counterexample :
    ¬ (solve wCache ["d-x1"] reqX = solve wCache [] reqX) := by
  intro h
  have e1 : solve wCache ["d-x1"] reqX =
      Except.ok ⟨"app:x", "run", [("app:x", x1)]⟩ := rfl
  have e2 : solve wCache [] reqX =
      Except.ok ⟨"app:x", "run", [("app:x", x2)]⟩ := rfl
  rw [e1, e2] at h
  injection h with h
  exact absurd h (by decide)

/-- C4 (amended): Solve is deterministic once all of its inputs are fixed:
two runs over an identical Feed set, identical local cache contents and an
identical Requirements value return identical results. -/
theorem solve_deterministic (wa wb : FeedSet) (ca cb : List Digest)
    (ra rb : Requirements) (hw : wa = wb) (hc : ca = cb) (hr : ra = rb) :
    solve wa ca ra = solve wb cb rb := by
  subst hw
  subst hc
  subst hr
  rfl

/-- Witness for the amended C4. -/
theorem solve_deterministic_witness : solve w0 [] r0 = solve w0 [] r0 :=
  solve_deterministic w0 w0 [] [] r0 r0 rfl rfl rfl

/-- C2: On every successful run the driver executes the pipeline in order:
Solve first produces Selections from the driver's Requirements, then exactly
the uncached selected implementations are fetched, and Start runs last —
after every fetch event, never among them — at which point every selected
implementation's digest has a store entry. -/
theorem driver_pipeline_order (world : FeedSet) (net : Network) (mA : Nat)
    (store : Store) (argv : List String) (s : Store) (evs : List Event)
    (h : runDriver world net mA store argv = (s, evs, none)) :
    ∃ req sel fevs entry,
      driverRequirements argv = some req ∧
      solve world store req = Except.ok sel ∧
      fetchAll net mA store (getUncachedImplementations store sel) = (s, fevs, none) ∧
      evs = Event.solved :: (fevs ++ [Event.started sel.commandName entry]) ∧
      (∀ e ∈ fevs, ∀ c p2, e ≠ Event.started c p2) ∧
      requestedOf fevs =
        (getUncachedImplementations store sel).map (fun im => im.digest) ∧
      (∀ p ∈ sel.entries, p.2.digest ∈ s) := by
  obtain ⟨req, sel, fevs, entry, hreq, hsv, hfa, hst, hevs⟩ := runDriver_ok_shape h
  refine ⟨req, sel, fevs, entry, hreq, hsv, hfa, hevs, ?_, ?_, ?_⟩
  · intro e he c p2 hne
    subst hne
    exact fetchAll_no_started _ _ _ _ _ hfa c p2 he
  · exact fetchAll_success_requested _ _ _ _ hfa
  · intro p hp
    by_cases hc : store.contains p.2.digest = true
    · exact fetchAll_store_mono _ _ _ _ _ hfa _ ((contains_eq_true_iff _ _).mp hc)
    · have hcf : store.contains p.2.digest = false := Bool.eq_false_iff.mpr hc
      have hmem : p.2 ∈ getUncachedImplementations store sel := by
        simp only [getUncachedImplementations, List.mem_filter, List.mem_map]
        exact ⟨⟨p, hp, rfl⟩, by rw [hcf]; rfl⟩
      exact fetchAll_success_cached _ _ _ _ hfa _ hmem

/-- Witness for C2: the full driver run on the first scenario. -/
theorem driver_pipeline_order_witness :
    ∃ req sel fevs entry,
      driverRequirements ["prog", "app:editor"] = some req ∧
      solve w0 [] req = Except.ok sel ∧
      ([Event.solved, Event.fetchRequested "d-sp21",
        Event.download "u-sp21" 0 (some "d-sp21"), Event.fetched "d-sp21",
        Event.fetchRequested "d-ed15", Event.download "u-ed15" 0 (some "d-ed15"),
        Event.fetched "d-ed15", Event.started "run" "bin/ed15"] : List Event) =
        Event.solved :: (fevs ++ [Event.started sel.commandName entry]) ∧
      (∀ p ∈ sel.entries, p.2.digest ∈ (["d-ed15", "d-sp21"] : Store)) := by
  obtain ⟨req, sel, fevs, entry, h1, h2, _, h4, _, _, h7⟩ :=
    driver_pipeline_order w0 netW0 3 [] ["prog", "app:editor"] ["d-ed15", "d-sp21"]
      [Event.solved, Event.fetchRequested "d-sp21",
        Event.download "u-sp21" 0 (some "d-sp21"), Event.fetched "d-sp21",
        Event.fetchRequested "d-ed15", Event.download "u-ed15" 0 (some "d-ed15"),
        Event.fetched "d-ed15", Event.started "run" "bin/ed15"] rfl
  exact ⟨req, sel, fevs, entry, h1, h2, h4, h7⟩

/-- C9: The driver fetches missing implementations strictly sequentially:
between the solved event and the started event the trace is the
concatenation of one contiguous block per element of
GetUncachedImplementations, in enumeration order, each block opening with
that element's fetch request and containing no other request — so one fetch
completes before the next is requested and fetches never overlap. -/
theorem driver_fetch_sequential (world : FeedSet) (net : Network) (mA : Nat)
    (store : Store) (argv : List String) (s : Store) (evs : List Event)
    (h : runDriver world net mA store argv = (s, evs, none)) :
    ∃ req sel fevs entry,
      driverRequirements argv = some req ∧
      solve world store req = Except.ok sel ∧
      evs = Event.solved :: (fevs ++ [Event.started sel.commandName entry]) ∧
      fevs = (fetchBlocks net mA store (getUncachedImplementations store sel)).flatten ∧
      List.Forall₂
        (fun b im => ∃ t, b = Event.fetchRequested im.digest :: t ∧ requestedOf t = [])
        (fetchBlocks net mA store (getUncachedImplementations store sel))
        (getUncachedImplementations store sel) ∧
      requestedOf fevs =
        (getUncachedImplementations store sel).map (fun im => im.digest) := by
  obtain ⟨req, sel, fevs, entry, hreq, hsv, hfa, hst, hevs⟩ := runDriver_ok_shape h
  refine ⟨req, sel, fevs, entry, hreq, hsv, hevs, ?_, ?_, ?_⟩
  · have h2 := @fetchAll_events_eq_blocks net mA (getUncachedImplementations store sel) store
    rw [hfa] at h2
    exact h2
  · exact fetchAll_success_blocks _ _ _ _ hfa
  · exact fetchAll_success_requested _ _ _ _ hfa

/-- Witness for C9: the driver run on the first scenario requests exactly
the two uncached digests, in enumeration order. -/
theorem driver_fetch_sequential_witness :
    ∃ req sel fevs entry,
      driverRequirements ["prog", "app:editor"] = some req ∧
      solve w0 [] req = Except.ok sel ∧
      ([Event.solved, Event.fetchRequested "d-sp21",
        Event.download "u-sp21" 0 (some "d-sp21"), Event.fetched "d-sp21",
        Event.fetchRequested "d-ed15", Event.download "u-ed15" 0 (some "d-ed15"),
        Event.fetched "d-ed15", Event.started "run" "bin/ed15"] : List Event) =
        Event.solved :: (fevs ++ [Event.started sel.commandName entry]) ∧
      requestedOf fevs =
        (getUncachedImplementations [] sel).map (fun im => im.digest) := by
  obtain ⟨req, sel, fevs, entry, h1, h2, h3, _, _, h6⟩ :=
    driver_fetch_sequential w0 netW0 3 [] ["prog", "app:editor"] ["d-ed15", "d-sp21"]
      [Event.solved, Event.fetchRequested "d-sp21",
        Event.download "u-sp21" 0 (some "d-sp21"), Event.fetched "d-sp21",
        Event.fetchRequested "d-ed15", Event.download "u-ed15" 0 (some "d-ed15"),
        Event.fetched "d-ed15", Event.started "run" "bin/ed15"] rfl
  exact ⟨req, sel, fevs, entry, h1, h2, h3, h6⟩

/-- C5: When the digest recomputed over a downloaded and unpacked tree
differs from the Implementation's declared digest, the fetch fails with a
DigestMismatchError, the staged content is discarded (no cache entry exists
at the digest's final path and the driver's loop keeps the previous store),
no further download attempt follows the one that delivered the mismatching
content, and the error is a distinct constructor from the transient
FetchError. -/
theorem digest_mismatch_fatal (net : Network) (mA : Nat) (store : Store)
    (im : Implementation) (d : Digest) (evs : List Event)
    (hc : store.contains im.digest = false)
    (hdl : downloadGo net im.sourceUrl 0 mA = (some d, evs))
    (hne : d ≠ im.digest) :
    ensureCached net mA store im =
      (Except.error (FetchFailure.digestMismatch im.digest d), evs) ∧
    (∀ u, FetchFailure.digestMismatch im.digest d ≠ FetchFailure.fetchError u) ∧
    (∃ pre, evs = pre ++ [Event.download im.sourceUrl pre.length (some d)] ∧
      ∀ e ∈ pre, ∃ k, e = Event.download im.sourceUrl k none) ∧
    (∀ rest, fetchAll net mA store (im :: rest) =
      (store, Event.fetchRequested im.digest :: evs,
        some (FetchFailure.digestMismatch im.digest d))) ∧
    store.contains im.digest = false := by
  have hm := ensureCached_mismatch hc hdl hne
  refine ⟨hm, ?_, ?_, ?_, hc⟩
  · intro u hu
    cases hu
  · obtain ⟨pre, hp, hpre⟩ := downloadGo_some _ _ _ _ hdl
    exact ⟨pre, by simpa using hp, hpre⟩
  · intro rest
    simp only [fetchAll]
    rw [hm]

/-- Witness for C5: a corrupted download of editor 1.5. -/
theorem digest_mismatch_fatal_witness :
    ensureCached netBad 1 [] ed15 =
      (Except.error (FetchFailure.digestMismatch "d-ed15" "d-wrong"),
        [Event.download "u-ed15" 0 (some "d-wrong")]) ∧
    (∀ rest, fetchAll netBad 1 [] (ed15 :: rest) =
      ([], [Event.fetchRequested "d-ed15", Event.download "u-ed15" 0 (some "d-wrong")],
        some (FetchFailure.digestMismatch "d-ed15" "d-wrong"))) := by
  have h := digest_mismatch_fatal netBad 1 [] ed15 "d-wrong"
    [Event.download "u-ed15" 0 (some "d-wrong")] rfl rfl (by decide)
  exact ⟨h.1, h.2.2.2.1⟩

/-- C6: EnsureCached is idempotent: a digest with a store entry returns that
entry's path immediately with no network events; hence after any successful
call, a second call on the same Implementation is a no-op performing no
network I/O and returning the same digest-addressed path. -/
theorem ensureCached_idempotent (net net2 : Network) (mA mA2 : Nat)
    (store : Store) (im : Implementation) :
    (store.contains im.digest = true →
      ensureCached net mA store im = (Except.ok (store, storePath im.digest), [])) ∧
    (∀ s2 p evs, ensureCached net mA store im = (Except.ok (s2, p), evs) →
      ensureCached net2 mA2 s2 im = (Except.ok (s2, p), []) ∧
      p = storePath im.digest) := by
  constructor
  · exact ensureCached_hit
  · intro s2 p evs h
    exact ⟨ensureCached_second h, (ensureCached_ok_facts h).1⟩

/-- Witness for C6: fetching editor 1.5 once and then again. -/
theorem ensureCached_idempotent_witness :
    ensureCached netW0 1 ["d-ed15"] ed15 =
      (Except.ok ((["d-ed15"] : Store), storePath "d-ed15"), ([] : List Event)) ∧
    storePath "d-ed15" = storePath ed15.digest := by
  have h := (ensureCached_idempotent netW0 netW0 1 1 [] ed15).2 ["d-ed15"]
    (storePath "d-ed15") [Event.download "u-ed15" 0 (some "d-ed15"),
      Event.fetched "d-ed15"] rfl
  exact ⟨h.1, h.2⟩

/-- C7: Errors are atomic: every digest cached before the run is still
cached after it, whatever the outcome; a Solve failure aborts the run with
the store untouched and no events; after a Solve or fetch failure the
Executor's Start is never reached; and a Selections is only ever returned
complete, with every applicable required dependency satisfied. -/
theorem errors_atomic (world : FeedSet) (net : Network) (mA : Nat) (store : Store)
    (argv : List String) (s : Store) (evs : List Event) (out : Option DriverFailure)
    (h : runDriver world net mA store argv = (s, evs, out)) :
    (∀ d ∈ store, d ∈ s) ∧
    (∀ e, out = some (DriverFailure.solveFailed e) → s = store ∧ evs = []) ∧
    ((∃ e, out = some (DriverFailure.solveFailed e)) ∨
      (∃ e, out = some (DriverFailure.fetchFailed e)) →
      ∀ c p, Event.started c p ∉ evs) ∧
    (∀ req sel, solve world store req = Except.ok sel →
      ValidSelections world req sel) := by
  refine ⟨runDriver_store_mono h, ?_, ?_, ?_⟩
  · intro e he
    rw [he] at h
    exact runDriver_solveFailed_shape h
  · intro hf
    rcases hf with ⟨e, he⟩ | ⟨e, he⟩
    · rw [he] at h
      exact runDriver_failure_no_started h (Or.inl ⟨e, rfl⟩)
    · rw [he] at h
      exact runDriver_failure_no_started h (Or.inr (Or.inl ⟨e, rfl⟩))
  · intro req sel hsv
    exact solve_ok_valid hsv

/-- Witness for C7: an unsatisfiable run aborts before any fetch or start,
leaving the store untouched. -/
theorem errors_atomic_witness :
    (∀ d ∈ (["d-old"] : Store), d ∈ (["d-old"] : Store)) ∧
    ((["d-old"] : Store) = ["d-old"] ∧ ([] : List Event) = []) ∧
    (∀ c p, Event.started c p ∉ ([] : List Event)) := by
  have h := errors_atomic w1 netW0 3 ["d-old"] ["prog", "app:editor"] ["d-old"] []
    (some (DriverFailure.solveFailed (SolveFailure.unsatisfiable "app:editor"))) rfl
  exact ⟨h.1, h.2.1 _ rfl, h.2.2.1 (Or.inl ⟨_, rfl⟩)⟩

/-- C8: A Requirements value built from only an Interface URI, as the driver
builds it, has no explicit command name; the effective command defaults to
"run"; and a launch from the resulting Selections resolves the root
Implementation's command named "run". -/
theorem default_command_run (u : Interface) :
    (Requirements.ofUri u).commandName = none ∧
    (Requirements.ofUri u).effectiveCommand = "run" ∧
    (∀ world cached sel, solve world cached (Requirements.ofUri u) = Except.ok sel →
      sel.commandName = "run" ∧
      ∀ ev, startExecutor sel = Except.ok ev →
        ∃ root entry, lookupSel sel.entries sel.interfaceUri = some root ∧
          lookupCommand root.commands "run" = some entry ∧
          ev = Event.started "run" entry) := by
  refine ⟨rfl, rfl, ?_⟩
  intro world cached sel hsv
  have hval := solve_ok_valid hsv
  have hcmd : sel.commandName = "run" := hval.2.1
  refine ⟨hcmd, ?_⟩
  intro ev hst
  obtain ⟨root, entry, hroot, hc, hev⟩ := startExecutor_ok hst
  rw [hcmd] at hc hev
  exact ⟨root, entry, hroot, hc, hev⟩

/-- Witness for C8: the driver-built request for the editor launches the
editor's "run" command. -/
theorem default_command_run_witness :
    selEd.commandName = "run" ∧
    ∃ root entry, lookupSel selEd.entries selEd.interfaceUri = some root ∧
      lookupCommand root.commands "run" = some entry ∧
      Event.started "run" "bin/ed15" = Event.started "run" entry := by
  have h := (default_command_run "app:editor").2.2 w0 [] selEd rfl
  exact ⟨h.1, h.2 (Event.started "run" "bin/ed15") rfl⟩

/-- C10: With no command-line argument at index 1 the driver fails with the
IndexError-modelled missingArgument failure before Solve, any Fetch, or
Start runs — no events, store untouched; and when an argument is present,
the Requirements' feed URI is exactly that argument. -/
theorem driver_argv_handling (world : FeedSet) (net : Network) (mA : Nat)
    (store : Store) (argv : List String) :
    (argv.get? 1 = none →
      runDriver world net mA store argv =
        (store, [], some DriverFailure.missingArgument)) ∧
    (∀ uri, argv.get? 1 = some uri →
      driverRequirements argv = some (Requirements.ofUri uri) ∧
      (Requirements.ofUri uri).interfaceUri = uri) := by
  constructor
  · intro h
    unfold runDriver driverRequirements
    rw [h]
    rfl
  · intro uri h
    unfold driverRequirements
    rw [h]
    exact ⟨rfl, rfl⟩

/-- Witness for C10: a bare invocation fails immediately; a URI argument is
used verbatim. -/
theorem driver_argv_handling_witness :
    runDriver w0 netW0 3 ["d-old"] ["prog"] =
      (["d-old"], [], some DriverFailure.missingArgument) ∧
    driverRequirements ["prog", "app:editor"] =
      some (Requirements.ofUri "app:editor") ∧
    (Requirements.ofUri "app:editor").interfaceUri = "app:editor" := by
  refine ⟨(driver_argv_handling w0 netW0 3 ["d-old"] ["prog"]).1 rfl, ?_⟩
  exact (driver_argv_handling w0 netW0 3 ["d-old"] ["prog", "app:editor"]).2
    "app:editor" rfl

end ZeroInstall
